import Mathlib

/-!
Verification of the i18n-mark repository against its specification.

The definitions below are a shallow embedding of the TypeScript sources:
  * `src/utils.ts`           — `hasChinese`, `generateVarName`, `toSafeTemplateLiteral`,
                               `splitString`, `toUnixPath`
  * `src/extract.ts`         — `writeExtractFile`, `groupEntriesByKey`,
                               `detectI18NDifferences`
  * `src/extract/extract-js.ts` — `extractFromJsCode`
  * `src/mark-js.ts`         — `markJsCode` (visitor span collection + application)
  * `src/translation/…`      — `TranslationManager.translateProject`,
                               `TranslationRecordManager`, Tencent batch splitting

JavaScript objects are modelled as association lists (`List (String × α)`),
property lookup as first-match lookup, assignment as in-place update (or append
when absent), and JavaScript truthiness of a string value as "present and
non-empty" (arrays and objects are always truthy).  Strings are treated as
sequences of scalar values; all concrete inputs used below lie in the BMP,
where JavaScript UTF-16 indices coincide with code-point indices.
-/

/-- `hasChinese` from `src/utils.ts`: tests the regex `[一-龥]`. -/
def hasChinese (s : String) : Bool :=
  s.data.any (fun c => 0x4e00 ≤ c.toNat && c.toNat ≤ 0x9fa5)

/-- `generateVarName` from `src/utils.ts`:
`String.fromCharCode(97 + index % 26).repeat(Math.floor(index / 26) + 1)`. -/
def generateVarName (index : Nat) : String :=
  String.mk (List.replicate (index / 26 + 1) (Char.ofNat (97 + index % 26)))

theorem generateVarName_length (i : Nat) :
    (generateVarName i).length = i / 26 + 1 := by
  simp [generateVarName, String.length]

theorem char_ofNat_low_inj {a b : Nat} (ha : a < 0xd800) (hb : b < 0xd800)
    (h : Char.ofNat a = Char.ofNat b) : a = b := by
  have ha' : (Char.ofNat a).toNat = a := by
    simp [Char.ofNat, Char.toNat, ha, UInt32.ofNatCore]
    split
    · rfl
    · omega
  have hb' : (Char.ofNat b).toNat = b := by
    simp [Char.ofNat, Char.toNat, hb, UInt32.ofNatCore]
    split
    · rfl
    · omega
  rw [← ha', ← hb', h]

theorem generateVarName_head (i : Nat) :
    (generateVarName i).data.head? = some (Char.ofNat (97 + i % 26)) := by
  simp [generateVarName, List.replicate_succ]

/-- C8: the placeholder name generator is injective over all indices, its
values at 0, 25 and 26 are "a", "z", "aa", and the name for index `i` is the
letter `chr(97 + i % 26)` repeated `i / 26 + 1` times. -/
theorem generateVarName_injective_and_values (i j : Nat) :
    (generateVarName i = generateVarName j → i = j) ∧
    generateVarName 0 = "a" ∧ generateVarName 25 = "z" ∧
    generateVarName 26 = "aa" ∧
    generateVarName i =
      String.mk (List.replicate (i / 26 + 1) (Char.ofNat (97 + i % 26))) := by
  refine ⟨fun h => ?_, by decide, by decide, by decide, rfl⟩
  have hlen : i / 26 + 1 = j / 26 + 1 := by
    rw [← generateVarName_length i, ← generateVarName_length j, h]
  have hdiv : i / 26 = j / 26 := by omega
  have hhead := generateVarName_head i
  rw [h, generateVarName_head j] at hhead
  have hchar : Char.ofNat (97 + i % 26) = Char.ofNat (97 + j % 26) :=
    Option.some.inj hhead.symm
  have hmod : 97 + i % 26 = 97 + j % 26 :=
    char_ofNat_low_inj (by omega) (by omega) hchar
  omega

theorem generateVarName_inj_witness :
    generateVarName 5 = generateVarName 5 ∧ (5 : Nat) = 5 :=
  ⟨rfl, (generateVarName_injective_and_values 5 5).1 rfl⟩

/-! ## Model of `src/extract.ts` (Reconciler) -/

/-- `I18nEntryType` from `src/shared/types.ts`.  An absent `filePath`
(`undefined` in JavaScript) is modelled as the empty string, which is
falsy exactly like `undefined` in the `!entry.filePath` test.  The source
field `variables` is rendered `vars` (`variables` is a reserved legacy
command name in Lean). -/
structure I18nEntry where
  key : String
  text : String
  vars : List String := []
  line : Nat := 0
  filePath : String := ""
deriving DecidableEq, Repr

/-- A per-language dictionary file: a JavaScript object key → string. -/
abbrev Dict := List (String × String)

/-- `data[k]` property read: first matching property, `none` = `undefined`. -/
def dictLookup (d : Dict) (k : String) : Option String :=
  (d.find? (fun p => p.1 == k)).map Prod.snd

/-- JavaScript truthiness of `data[k]` for a string-valued object:
truthy iff the property exists and its value is non-empty. -/
def dictTruthy (d : Dict) (k : String) : Bool :=
  match dictLookup d k with
  | some s => s ≠ ""
  | none => false

/-- `data[k] = v` property write: update in place when present
(keys keep their position), append otherwise. -/
def dictSet (d : Dict) (k v : String) : Dict :=
  if d.any (fun p => p.1 == k) then
    d.map (fun p => if p.1 == k then (p.1, v) else p)
  else d ++ [(k, v)]

/-- `KeyUsageMapType`: dictionary key → array of referencing file paths. -/
abbrev KeyUsageMap := List (String × List String)

def kuLookup (m : KeyUsageMap) (k : String) : Option (List String) :=
  (m.find? (fun p => p.1 == k)).map Prod.snd

def kuKeys (m : KeyUsageMap) : List String := m.map Prod.fst

/-- `acc[k] = v` on a usage map. -/
def kuSet (m : KeyUsageMap) (k : String) (v : List String) : KeyUsageMap :=
  if m.any (fun p => p.1 == k) then
    m.map (fun p => if p.1 == k then (p.1, v) else p)
  else m ++ [(k, v)]

/-- `groupEntriesByKey` from `src/extract.ts`.  `np` stands for the
`toUnixPath(relative(process.cwd(), ·))` path normalisation (file-system
dependent, hence a parameter).  Entries with a falsy `filePath` are skipped;
a path already present for the key is not duplicated (arrays are always
truthy, so the `acc[entry.key]` test is a presence test). -/
def groupEntriesStep (np : String → String) (acc : KeyUsageMap)
    (e : I18nEntry) : KeyUsageMap :=
  if e.filePath == "" then acc
  else
    let rp := np e.filePath
    match kuLookup acc e.key with
    | some paths => if rp ∈ paths then acc else kuSet acc e.key (paths ++ [rp])
    | none => acc ++ [(e.key, [rp])]

def groupEntriesByKey (np : String → String) (entries : List I18nEntry) :
    KeyUsageMap :=
  entries.foldl (groupEntriesStep np) []

/-- `I18nDiffReportType` from `src/shared/types.ts`. -/
structure I18nDiffReport where
  addedKeys : KeyUsageMap
  removedKeys : KeyUsageMap
  unchangedKeys : KeyUsageMap
deriving Repr

/-- `detectI18NDifferences` from `src/extract.ts`.  The union of the two key
sets (`Set` preserves first-insertion order, modelled by `dedup`) is swept
once; the `if / else if / else` chain of the source is rendered as one guard
per output map.  Array values are always truthy, so `!oldKeys[key]` is a
pure presence test. -/
def detectI18NDifferences (oldKeys newKeys : KeyUsageMap) : I18nDiffReport :=
  let allKeys := (kuKeys oldKeys ++ kuKeys newKeys).dedup
  { addedKeys := allKeys.filterMap fun k =>
      if (kuLookup oldKeys k).isNone then some (k, (kuLookup newKeys k).getD [])
      else none
    removedKeys := allKeys.filterMap fun k =>
      if !(kuLookup oldKeys k).isNone && (kuLookup newKeys k).isNone then
        some (k, (kuLookup oldKeys k).getD [])
      else none
    unchangedKeys := allKeys.filterMap fun k =>
      if !(kuLookup oldKeys k).isNone && !(kuLookup newKeys k).isNone then
        some (k, (kuLookup newKeys k).getD [])
      else none }

/-- The `entries.forEach` merge loop of `writeExtractFile` (one language):
an entry is written only when `data[v.key]` is falsy. -/
def applyEntriesDict (entries : List I18nEntry) (d : Dict) : Dict :=
  entries.foldl (fun d e => if dictTruthy d e.key then d else dictSet d e.key e.text) d

/-- The `for key in diff.removedKeys` deletion loop of `writeExtractFile`. -/
def removeDiffKeys (removed : KeyUsageMap) (d : Dict) : Dict :=
  (kuKeys removed).foldl (fun d k => d.filter (fun p => p.1 ≠ k)) d

/-- The body of the `langs.forEach` loop of `writeExtractFile`
(merge entries, then delete removed keys when `autoRemoveKey`). -/
def writeExtractLang (entries : List I18nEntry) (removed : KeyUsageMap)
    (autoRemoveKey : Bool) (d : Dict) : Dict :=
  let d1 := applyEntriesDict entries d
  if autoRemoveKey then removeDiffKeys removed d1 else d1

/-- `writeExtractFile` from `src/extract.ts`, as a pure state transformer.
Inputs: the entry batch, the prior usage map (`<fileMapping>.json`), the
per-language dictionaries (one per configured language; `[]` for a missing
file) and the `autoRemoveKey` flag.  Output: the written usage map, the
written dictionaries, and the JavaScript return value of the function —
`none` (`undefined`) on both exits, since no `return` in the source carries
a value. -/
def writeExtractFile (np : String → String) (entries : List I18nEntry)
    (oldGroups : KeyUsageMap) (dicts : List (String × Dict))
    (autoRemoveKey : Bool) :
    (KeyUsageMap × List (String × Dict)) × Option (List String) :=
  if entries.isEmpty then ((oldGroups, dicts), none)
  else
    let groups := groupEntriesByKey np entries
    let diff := detectI18NDifferences oldGroups groups
    ((groups,
      dicts.map fun p => (p.1, writeExtractLang entries diff.removedKeys autoRemoveKey p.2)),
     none)

/-- Modelled from the spec: the return value `writeExtractFile` is documented
to have ("Returns the list of keys that are newly added") but which the
function in `src/extract.ts` never produces — the keys of
`diff.addedKeys`. -/
def writeExtractFileSpecReturn (np : String → String) (entries : List I18nEntry)
    (oldGroups : KeyUsageMap) : List String :=
  kuKeys (detectI18NDifferences oldGroups (groupEntriesByKey np entries)).addedKeys

theorem kuLookup_eq_none_iff (m : KeyUsageMap) (k : String) :
    kuLookup m k = none ↔ k ∉ kuKeys m := by
  simp only [kuLookup, Option.map_eq_none', List.find?_eq_none, kuKeys,
    List.mem_map, beq_iff_eq]
  constructor
  · rintro h ⟨p, hp, rfl⟩
    exact h p hp rfl
  · intro h p hp hpk
    exact h ⟨p, hp, hpk⟩

theorem kuKeys_filterMap_guard (l : List String) (c : String → Bool)
    (g : String → List String) (k : String) :
    (k ∈ kuKeys (l.filterMap fun x => if c x then some (x, g x) else none)
      ↔ k ∈ l ∧ c k) := by
  simp only [kuKeys, List.mem_map, List.mem_filterMap]
  constructor
  · rintro ⟨p, ⟨x, hx, hfx⟩, rfl⟩
    split at hfx
    · cases hfx
      rename_i hcx
      exact ⟨hx, hcx⟩
    · exact absurd hfx (by simp)
  · rintro ⟨hk, hc⟩
    exact ⟨(k, g k), ⟨k, hk, by simp [hc]⟩, rfl⟩

theorem mem_kuKeys_iff_not_isNone (m : KeyUsageMap) (k : String) :
    k ∈ kuKeys m ↔ (kuLookup m k).isNone = false := by
  rw [Option.isNone_eq_false_iff, Option.isSome_iff_ne_none]
  constructor
  · intro h hn
    exact (kuLookup_eq_none_iff m k).mp hn h
  · intro h
    by_contra hk
    exact h ((kuLookup_eq_none_iff m k).mpr hk)

/-- C4: the diff classifies every key of `keys(A) ∪ keys(B)` into exactly one
of `addedKeys`, `removedKeys`, `unchangedKeys`: the three key sets cover the
union and are pairwise disjoint. -/
theorem detectI18NDifferences_partition (oldKeys newKeys : KeyUsageMap)
    (k : String) :
    ((k ∈ kuKeys (detectI18NDifferences oldKeys newKeys).addedKeys ∨
      k ∈ kuKeys (detectI18NDifferences oldKeys newKeys).removedKeys ∨
      k ∈ kuKeys (detectI18NDifferences oldKeys newKeys).unchangedKeys) ↔
      (k ∈ kuKeys oldKeys ∨ k ∈ kuKeys newKeys)) ∧
    ¬(k ∈ kuKeys (detectI18NDifferences oldKeys newKeys).addedKeys ∧
      k ∈ kuKeys (detectI18NDifferences oldKeys newKeys).removedKeys) ∧
    ¬(k ∈ kuKeys (detectI18NDifferences oldKeys newKeys).addedKeys ∧
      k ∈ kuKeys (detectI18NDifferences oldKeys newKeys).unchangedKeys) ∧
    ¬(k ∈ kuKeys (detectI18NDifferences oldKeys newKeys).removedKeys ∧
      k ∈ kuKeys (detectI18NDifferences oldKeys newKeys).unchangedKeys) := by
  have hall : k ∈ (kuKeys oldKeys ++ kuKeys newKeys).dedup ↔
      (k ∈ kuKeys oldKeys ∨ k ∈ kuKeys newKeys) := by
    simp [List.mem_dedup]
  have ha : k ∈ kuKeys (detectI18NDifferences oldKeys newKeys).addedKeys ↔
      k ∈ (kuKeys oldKeys ++ kuKeys newKeys).dedup ∧
        (kuLookup oldKeys k).isNone := by
    simpa [detectI18NDifferences] using
      kuKeys_filterMap_guard ((kuKeys oldKeys ++ kuKeys newKeys).dedup)
        (fun x => (kuLookup oldKeys x).isNone)
        (fun x => (kuLookup newKeys x).getD []) k
  have hr : k ∈ kuKeys (detectI18NDifferences oldKeys newKeys).removedKeys ↔
      k ∈ (kuKeys oldKeys ++ kuKeys newKeys).dedup ∧
        (!(kuLookup oldKeys k).isNone && (kuLookup newKeys k).isNone) := by
    simpa [detectI18NDifferences] using
      kuKeys_filterMap_guard ((kuKeys oldKeys ++ kuKeys newKeys).dedup)
        (fun x => !(kuLookup oldKeys x).isNone && (kuLookup newKeys x).isNone)
        (fun x => (kuLookup oldKeys x).getD []) k
  have hu : k ∈ kuKeys (detectI18NDifferences oldKeys newKeys).unchangedKeys ↔
      k ∈ (kuKeys oldKeys ++ kuKeys newKeys).dedup ∧
        (!(kuLookup oldKeys k).isNone && !(kuLookup newKeys k).isNone) := by
    simpa [detectI18NDifferences] using
      kuKeys_filterMap_guard ((kuKeys oldKeys ++ kuKeys newKeys).dedup)
        (fun x => !(kuLookup oldKeys x).isNone && !(kuLookup newKeys x).isNone)
        (fun x => (kuLookup newKeys x).getD []) k
  have ho := mem_kuKeys_iff_not_isNone oldKeys k
  have hn := mem_kuKeys_iff_not_isNone newKeys k
  rw [ha, hr, hu, hall]
  cases hob : (kuLookup oldKeys k).isNone <;>
    cases hnb : (kuLookup newKeys k).isNone <;>
      simp [hob, hnb] at ho hn ⊢ <;> tauto

theorem dictLookup_isSome_iff_any (d : Dict) (k : String) :
    (dictLookup d k).isSome = d.any (fun p => p.1 == k) := by
  induction d with
  | nil => rfl
  | cons a t ih =>
    by_cases h : a.1 == k <;> simp [dictLookup, List.find?, List.any_cons, h] at ih ⊢ <;>
      simpa [dictLookup] using ih

theorem dictLookup_map_set (d : Dict) (k' v k : String) :
    dictLookup (d.map (fun p => if p.1 == k' then (p.1, v) else p)) k =
      if k = k' then (dictLookup d k).map (fun _ => v) else dictLookup d k := by
  induction d with
  | nil => simp [dictLookup]
  | cons a t ih =>
    by_cases hak : a.1 == k'
    · have hak' : a.1 = k' := by simpa using hak
      by_cases hkk : k = k'
      · subst hkk
        simp [dictLookup, List.find?, hak, hak', List.map_cons] at ih ⊢
      · simp only [List.map_cons, hak, if_pos]
        have hka : ¬(a.1 == k) := by simp [hak', Ne.symm, hkk]
        have : ¬((a.1, v).1 == k) = true := by simpa using (by simpa using hka)
        simp [dictLookup, List.find?, hka, this, hkk] at ih ⊢
        simpa [dictLookup, hkk] using ih
    · by_cases hka : a.1 == k
      · have hka' : a.1 = k := by simpa using hka
        have hkk : ¬(k = k') := fun h => hak (by simp [hka', h])
        simp [dictLookup, List.find?, hak, hka, hkk]
      · simp [dictLookup, List.find?, hak, hka] at ih ⊢
        simpa [dictLookup] using ih


theorem dictLookup_append_single (d : Dict) (k' v k : String) :
    dictLookup (d ++ [(k', v)]) k =
      match dictLookup d k with
      | some w => some w
      | none => if k' = k then some v else none := by
  induction d with
  | nil =>
    by_cases h : k' = k
    · simp [dictLookup, List.find?, h]
    · have hb : (k' == k) = false := by simp [h]
      simp [dictLookup, List.find?, hb, h]
  | cons a t ih =>
    by_cases hka : a.1 == k
    · simp [dictLookup, List.find?, hka]
    · simp only [List.cons_append]
      simp [dictLookup, List.find?, hka] at ih ⊢
      simpa [dictLookup] using ih

theorem dictLookup_dictSet (d : Dict) (k' v k : String) :
    dictLookup (dictSet d k' v) k = if k = k' then some v else dictLookup d k := by
  unfold dictSet
  by_cases hany : d.any (fun p => p.1 == k')
  · rw [if_pos hany, dictLookup_map_set]
    by_cases hkk : k = k'
    · subst hkk
      have hs : (dictLookup d k).isSome := by rw [dictLookup_isSome_iff_any]; exact hany
      cases hl : dictLookup d k with
      | none => rw [hl] at hs; simp at hs
      | some w => simp [hl]
    · simp [hkk]
  · rw [if_neg hany, dictLookup_append_single]
    by_cases hkk : k = k'
    · subst hkk
      have hs : ¬(dictLookup d k).isSome := by
        rw [dictLookup_isSome_iff_any]; simpa using hany
      cases hl : dictLookup d k with
      | none => simp
      | some w => rw [hl] at hs; simp at hs
    · have hkk' : ¬(k' = k) := fun h => hkk h.symm
      cases hl : dictLookup d k with
      | none => simp [hkk', hkk]
      | some w => simp [hkk]

theorem applyEntriesDict_preserves (entries : List I18nEntry) (d : Dict)
    (k v : String) (hv : dictLookup d k = some v) (hne : v ≠ "") :
    dictLookup (applyEntriesDict entries d) k = some v := by
  induction entries generalizing d with
  | nil => exact hv
  | cons e t ih =>
    by_cases ht : dictTruthy d e.key
    · simpa [applyEntriesDict, ht] using ih d hv
    · have happ : applyEntriesDict (e :: t) d = applyEntriesDict t (dictSet d e.key e.text) := by
        simp [applyEntriesDict, ht]
      have hek : ¬(e.key = k) := by
        intro h
        rw [h] at ht
        simp [dictTruthy, hv, hne] at ht
      have hke : ¬(k = e.key) := fun h => hek h.symm
      rw [happ]
      exact ih _ (by rw [dictLookup_dictSet, if_neg hke]; exact hv)

theorem applyEntriesDict_untouched (entries : List I18nEntry) (d : Dict)
    (k : String) (h : ∀ e ∈ entries, e.key ≠ k) :
    dictLookup (applyEntriesDict entries d) k = dictLookup d k := by
  induction entries generalizing d with
  | nil => rfl
  | cons e t ih =>
    have hek : e.key ≠ k := h e (List.mem_cons_self e t)
    have hke : ¬(k = e.key) := fun hh => hek hh.symm
    by_cases ht : dictTruthy d e.key
    · simpa [applyEntriesDict, ht] using ih d (fun x hx => h x (List.mem_cons_of_mem e hx))
    · have happ : applyEntriesDict (e :: t) d = applyEntriesDict t (dictSet d e.key e.text) := by
        simp [applyEntriesDict, ht]
      rw [happ, ih _ (fun x hx => h x (List.mem_cons_of_mem e hx)), dictLookup_dictSet,
        if_neg hke]

theorem applyEntriesDict_fills (entries : List I18nEntry) (d : Dict)
    (k : String) (hf : dictTruthy d k = false) (hex : ∃ e ∈ entries, e.key = k) :
    ∃ e ∈ entries, e.key = k ∧
      dictLookup (applyEntriesDict entries d) k = some e.text := by
  induction entries generalizing d with
  | nil => simp at hex
  | cons e t ih =>
    by_cases hek : e.key = k
    · have ht : ¬ dictTruthy d e.key = true := by rw [hek, hf]; simp
      have happ : applyEntriesDict (e :: t) d = applyEntriesDict t (dictSet d e.key e.text) := by
        simp [applyEntriesDict, ht]
      have hset : dictLookup (dictSet d e.key e.text) k = some e.text := by
        rw [dictLookup_dictSet, if_pos hek.symm]
      by_cases htext : e.text = ""
      · by_cases hex' : ∃ x ∈ t, x.key = k
        · obtain ⟨x, hx, hxk, hxl⟩ := ih (dictSet d e.key e.text)
            (by simp [dictTruthy, hset]; simp [htext]) hex'
          exact ⟨x, List.mem_cons_of_mem e hx, hxk, by rw [happ]; exact hxl⟩
        · refine ⟨e, List.mem_cons_self e t, hek, ?_⟩
          push_neg at hex'
          rw [happ, applyEntriesDict_untouched _ _ _ hex', hset]
      · refine ⟨e, List.mem_cons_self e t, hek, ?_⟩
        rw [happ]
        exact applyEntriesDict_preserves _ _ _ _ hset htext
    · have hex' : ∃ x ∈ t, x.key = k := by
        obtain ⟨x, hx, hxk⟩ := hex
        rcases List.mem_cons.mp hx with rfl | hx'
        · exact absurd hxk hek
        · exact ⟨x, hx', hxk⟩
      by_cases ht : dictTruthy d e.key
      · have happ : applyEntriesDict (e :: t) d = applyEntriesDict t d := by
          simp [applyEntriesDict, ht]
        obtain ⟨x, hx, hxk, hxl⟩ := ih d hf hex'
        exact ⟨x, List.mem_cons_of_mem e hx, hxk, by rw [happ]; exact hxl⟩
      · have happ : applyEntriesDict (e :: t) d = applyEntriesDict t (dictSet d e.key e.text) := by
          simp [applyEntriesDict, ht]
        have hke : ¬(k = e.key) := fun hh => hek hh.symm
        have hftr : dictTruthy (dictSet d e.key e.text) k = false := by
          simp only [dictTruthy, dictLookup_dictSet]
          rw [if_neg hke]
          simpa [dictTruthy] using hf
        obtain ⟨x, hx, hxk, hxl⟩ := ih (dictSet d e.key e.text) hftr hex'
        exact ⟨x, List.mem_cons_of_mem e hx, hxk, by rw [happ]; exact hxl⟩

/-- C10: the `if (data[v.key])` presence check of the merge loop is a JavaScript
truthiness test: a key mapped to the empty string is overwritten with the
entry's text, while a key mapped to a non-empty string is left unchanged. -/
theorem applyEntriesDict_truthy_check (d : Dict) (entries : List I18nEntry)
    (k : String) :
    (∀ v, dictLookup d k = some v → v ≠ "" →
      dictLookup (applyEntriesDict entries d) k = some v) ∧
    (dictLookup d k = some "" → (∃ e ∈ entries, e.key = k) →
      ∃ e ∈ entries, e.key = k ∧
        dictLookup (applyEntriesDict entries d) k = some e.text) := by
  refine ⟨fun v hv hne => applyEntriesDict_preserves entries d k v hv hne,
    fun h0 hex => applyEntriesDict_fills entries d k ?_ hex⟩
  simp [dictTruthy, h0]

theorem applyEntriesDict_truthy_check_witness :
    dictLookup (applyEntriesDict [⟨"K", "X", [], 1, "a.ts"⟩] [("K", ""), ("L", "v")]) "L"
      = some "v" ∧
    (∃ e ∈ [(⟨"K", "X", [], 1, "a.ts"⟩ : I18nEntry)], e.key = "K" ∧
      dictLookup (applyEntriesDict [⟨"K", "X", [], 1, "a.ts"⟩] [("K", ""), ("L", "v")]) "K"
        = some e.text) :=
  ⟨(applyEntriesDict_truthy_check [("K", ""), ("L", "v")] [⟨"K", "X", [], 1, "a.ts"⟩] "L").1
      "v" (by decide) (by decide),
   (applyEntriesDict_truthy_check [("K", ""), ("L", "v")] [⟨"K", "X", [], 1, "a.ts"⟩] "K").2
      (by decide) ⟨⟨"K", "X", [], 1, "a.ts"⟩, by decide, by decide⟩⟩

/-- C1 counterexample: a key that is present in the dictionary with the empty
string as its value ("some value") is overwritten by `writeExtractFile`. -/
theorem writeExtractFile_overwrites_empty_value :
    dictLookup [("K", "")] "K" = some "" ∧
    (writeExtractFile id [⟨"K", "X", [], 1, "a.ts"⟩] [] [("zh", [("K", "")])] true).1.2
      = [("zh", [("K", "X")])] ∧ ("X" : String) ≠ "" := by decide

theorem kuKeys_kuSet_mem (m : KeyUsageMap) (k : String) (v : List String)
    (k' : String) (h : k' ∈ kuKeys m) : k' ∈ kuKeys (kuSet m k v) := by
  unfold kuSet
  split
  · simp only [kuKeys, List.map_map, List.mem_map] at h ⊢
    obtain ⟨p, hp, rfl⟩ := h
    refine ⟨p, hp, ?_⟩
    show (if p.1 == k then (p.1, v) else p).1 = p.1
    split <;> rfl
  · simp only [kuKeys, List.map_append, List.mem_append]
    exact Or.inl h

theorem groupEntriesStep_mono (np : String → String) (acc : KeyUsageMap)
    (e : I18nEntry) (k : String) (h : k ∈ kuKeys acc) :
    k ∈ kuKeys (groupEntriesStep np acc e) := by
  unfold groupEntriesStep
  by_cases hfp : e.filePath == ""
  · rw [if_pos hfp]; exact h
  · rw [if_neg hfp]
    cases hl : kuLookup acc e.key with
    | some paths =>
      simp only [hl]
      by_cases hrp : np e.filePath ∈ paths
      · rw [if_pos hrp]; exact h
      · rw [if_neg hrp]; exact kuKeys_kuSet_mem acc e.key _ k h
    | none =>
      simp only [hl, kuKeys, List.map_append, List.mem_append]
      exact Or.inl h

theorem groupEntriesStep_adds (np : String → String) (acc : KeyUsageMap)
    (e : I18nEntry) (hfp : e.filePath ≠ "") :
    e.key ∈ kuKeys (groupEntriesStep np acc e) := by
  unfold groupEntriesStep
  rw [if_neg (by simpa using hfp)]
  cases hl : kuLookup acc e.key with
  | some paths =>
    have hin : e.key ∈ kuKeys acc := by
      rw [mem_kuKeys_iff_not_isNone, hl]
      rfl
    simp only [hl]
    by_cases hrp : np e.filePath ∈ paths
    · rw [if_pos hrp]; exact hin
    · rw [if_neg hrp]; exact kuKeys_kuSet_mem acc e.key _ e.key hin
  | none =>
    simp only [hl, kuKeys, List.map_append, List.mem_append]
    exact Or.inr (by simp)

theorem mem_kuKeys_groupEntriesByKey (np : String → String)
    (entries : List I18nEntry) (e : I18nEntry) (he : e ∈ entries)
    (hfp : e.filePath ≠ "") :
    e.key ∈ kuKeys (groupEntriesByKey np entries) := by
  suffices h : ∀ acc : KeyUsageMap,
      (e.key ∈ kuKeys acc ∨ e ∈ entries) →
      e.key ∈ kuKeys (entries.foldl (groupEntriesStep np) acc) by
    exact h [] (Or.inr he)
  clear he
  induction entries with
  | nil =>
    rintro acc (h | h)
    · exact h
    · simp at h
  | cons x t ih =>
    rintro acc (h | h)
    · exact ih _ (Or.inl (groupEntriesStep_mono np acc x e.key h))
    · rcases List.mem_cons.mp h with rfl | hmem
      · exact ih _ (Or.inl (groupEntriesStep_adds np acc e hfp))
      · exact ih _ (Or.inr hmem)

theorem dictLookup_filter_ne (d : Dict) (k0 k : String) (h : k ≠ k0) :
    dictLookup (d.filter (fun p => p.1 ≠ k0)) k = dictLookup d k := by
  induction d with
  | nil => rfl
  | cons a t ih =>
    by_cases hk0 : a.1 = k0
    · have : ¬(a.1 == k) := by simp [hk0]; exact fun hh => h hh.symm
      simp only [List.filter_cons]
      rw [if_neg (by simp [hk0])]
      rw [ih]
      simp [dictLookup, List.find?, this]
    · simp only [List.filter_cons]
      rw [if_pos (by simpa using hk0)]
      by_cases hka : a.1 == k
      · simp [dictLookup, List.find?, hka]
      · simp [dictLookup, List.find?, hka] at ih ⊢
        simpa [dictLookup] using ih

theorem removeDiffKeys_preserves (removed : KeyUsageMap) (d : Dict) (k : String)
    (h : k ∉ kuKeys removed) :
    dictLookup (removeDiffKeys removed d) k = dictLookup d k := by
  unfold removeDiffKeys
  generalize kuKeys removed = ks at h ⊢
  revert h
  induction ks generalizing d with
  | nil => intro _; rfl
  | cons k0 t ih =>
    intro h
    have hk0 : k ≠ k0 := fun hh => h (by rw [hh]; exact List.mem_cons_self k0 t)
    have ht : k ∉ t := fun hh => h (List.mem_cons_of_mem k0 hh)
    simp only [List.foldl_cons]
    rw [ih _ ht, dictLookup_filter_ne d k0 k hk0]

theorem mem_removedKeys_iff (oldKeys newKeys : KeyUsageMap) (k : String) :
    k ∈ kuKeys (detectI18NDifferences oldKeys newKeys).removedKeys ↔
      (k ∈ kuKeys oldKeys ∨ k ∈ kuKeys newKeys) ∧
        (!(kuLookup oldKeys k).isNone && (kuLookup newKeys k).isNone) := by
  have := kuKeys_filterMap_guard ((kuKeys oldKeys ++ kuKeys newKeys).dedup)
    (fun x => !(kuLookup oldKeys x).isNone && (kuLookup newKeys x).isNone)
    (fun x => (kuLookup oldKeys x).getD []) k
  simpa [detectI18NDifferences, List.mem_dedup] using this

/-- C1 (amended): `writeExtractFile` never overwrites an existing *non-empty*
dictionary value: for every configured language dictionary and every entry in
the batch (entries carry a file path), a key already present with a non-empty
value keeps that value, and a key absent from the dictionary ends up mapped
to the text of one of the batch entries for that key. -/
theorem writeExtractFile_non_destructive (np : String → String)
    (entries : List I18nEntry) (oldGroups : KeyUsageMap)
    (dicts : List (String × Dict)) (autoRemoveKey : Bool)
    (lang : String) (d : Dict) (k : String) (e : I18nEntry)
    (hd : (lang, d) ∈ dicts) (he : e ∈ entries) (hk : e.key = k)
    (hfp : e.filePath ≠ "") :
    ((lang, writeExtractLang entries
        (detectI18NDifferences oldGroups (groupEntriesByKey np entries)).removedKeys
        autoRemoveKey d) ∈ (writeExtractFile np entries oldGroups dicts autoRemoveKey).1.2) ∧
    (∀ v, dictLookup d k = some v → v ≠ "" →
      dictLookup (writeExtractLang entries
        (detectI18NDifferences oldGroups (groupEntriesByKey np entries)).removedKeys
        autoRemoveKey d) k = some v) ∧
    (dictLookup d k = none →
      ∃ x ∈ entries, x.key = k ∧
        dictLookup (writeExtractLang entries
          (detectI18NDifferences oldGroups (groupEntriesByKey np entries)).removedKeys
          autoRemoveKey d) k = some x.text) := by
  have hne : entries.isEmpty = false := by
    cases entries with
    | nil => simp at he
    | cons a t => rfl
  have hkg : k ∈ kuKeys (groupEntriesByKey np entries) := by
    rw [← hk]
    exact mem_kuKeys_groupEntriesByKey np entries e he hfp
  have hnotrem :
      k ∉ kuKeys (detectI18NDifferences oldGroups (groupEntriesByKey np entries)).removedKeys := by
    intro hmem
    have := (mem_removedKeys_iff oldGroups (groupEntriesByKey np entries) k).mp hmem
    have hnew := this.2
    rw [mem_kuKeys_iff_not_isNone] at hkg
    simp [hkg] at hnew
  refine ⟨?_, ?_, ?_⟩
  · simp only [writeExtractFile, hne, Bool.false_eq_true, if_neg, not_false_iff,
      List.mem_map]
    exact ⟨(lang, d), hd, rfl⟩
  · intro v hv hvne
    have h1 : dictLookup (applyEntriesDict entries d) k = some v :=
      applyEntriesDict_preserves entries d k v hv hvne
    unfold writeExtractLang
    cases autoRemoveKey with
    | true => simpa [removeDiffKeys_preserves _ _ _ hnotrem] using h1
    | false => simpa using h1
  · intro hnone
    obtain ⟨x, hx, hxk, hxl⟩ :=
      applyEntriesDict_fills entries d k (by simp [dictTruthy, hnone]) ⟨e, he, hk⟩
    refine ⟨x, hx, hxk, ?_⟩
    unfold writeExtractLang
    cases autoRemoveKey with
    | true => simpa [removeDiffKeys_preserves _ _ _ hnotrem] using hxl
    | false => simpa using hxl

theorem writeExtractFile_non_destructive_witness :
    (("zh", writeExtractLang [⟨"K", "X", [], 1, "a.ts"⟩]
        (detectI18NDifferences []
          (groupEntriesByKey id [⟨"K", "X", [], 1, "a.ts"⟩])).removedKeys
        true [("K", "human")]) ∈
      (writeExtractFile id [⟨"K", "X", [], 1, "a.ts"⟩] []
        [("zh", [("K", "human")])] true).1.2) ∧
    dictLookup (writeExtractLang [⟨"K", "X", [], 1, "a.ts"⟩]
        (detectI18NDifferences []
          (groupEntriesByKey id [⟨"K", "X", [], 1, "a.ts"⟩])).removedKeys
        true [("K", "human")]) "K" = some "human" :=
  ⟨(writeExtractFile_non_destructive id [⟨"K", "X", [], 1, "a.ts"⟩] []
      [("zh", [("K", "human")])] true "zh" [("K", "human")] "K"
      ⟨"K", "X", [], 1, "a.ts"⟩ (by decide) (by decide) (by decide) (by decide)).1,
   (writeExtractFile_non_destructive id [⟨"K", "X", [], 1, "a.ts"⟩] []
      [("zh", [("K", "human")])] true "zh" [("K", "human")] "K"
      ⟨"K", "X", [], 1, "a.ts"⟩ (by decide) (by decide) (by decide) (by decide)).2.1
      "human" (by decide) (by decide)⟩

/-- C5: evaluated on a non-empty batch that adds a genuinely new key,
`writeExtractFile` returns `undefined` (`none`) — not the list of newly
added keys that the specification documents and that the vite
`ExtractQueue.extract` caller passes to `scheduleTranslate`. -/
theorem writeExtractFile_return_is_undefined :
    (writeExtractFile id [⟨"你好", "你好", [], 1, "a.ts"⟩] [] [("zh", [])] true).2
      = none ∧
    writeExtractFileSpecReturn id [⟨"你好", "你好", [], 1, "a.ts"⟩] [] = ["你好"] := by
  constructor
  · rfl
  · decide

/-! ## Model of `TencentTranslateService.splitTextsToBatches`
(`src/translation/services/tencent.ts`) -/

/-- One iteration of the `for (const text of texts)` loop, over the state
`(batches, currentBatch, currentBatchChars)`. -/
def splitStep (maxCharsPerBatch : Nat)
    (st : List (List String) × List String × Nat) (text : String) :
    List (List String) × List String × Nat :=
  let batches := st.1
  let currentBatch := st.2.1
  let currentBatchChars := st.2.2
  let textLength := text.length
  if textLength > maxCharsPerBatch then
    if 0 < currentBatch.length then (batches ++ [currentBatch] ++ [[text]], ([], 0))
    else (batches ++ [[text]], ([], 0))
  else if currentBatchChars + textLength > maxCharsPerBatch ∧ 0 < currentBatch.length then
    (batches ++ [currentBatch], ([text], textLength))
  else
    (batches, (currentBatch ++ [text], currentBatchChars + textLength))

/-- `splitTextsToBatches` from the Tencent service: fold the loop over the
texts, then push the trailing batch if non-empty. -/
def splitTextsToBatches (texts : List String) (maxCharsPerBatch : Nat) :
    List (List String) :=
  let st := texts.foldl (splitStep maxCharsPerBatch) ([], ([], 0))
  if 0 < st.2.1.length then st.1 ++ [st.2.1] else st.1

theorem splitFold_invariant (maxC : Nat) (texts : List String) :
    ∀ (batches : List (List String)) (cur : List String) (chars : Nat),
    chars = (cur.map String.length).sum →
    chars ≤ maxC →
    (∀ b ∈ batches, (∃ t, b = [t] ∧ t.length > maxC) ∨
      (b.map String.length).sum ≤ maxC) →
    (texts.foldl (splitStep maxC) (batches, (cur, chars))).2.2 =
      (((texts.foldl (splitStep maxC) (batches, (cur, chars))).2.1).map
        String.length).sum ∧
    (texts.foldl (splitStep maxC) (batches, (cur, chars))).2.2 ≤ maxC ∧
    (∀ b ∈ (texts.foldl (splitStep maxC) (batches, (cur, chars))).1,
      (∃ t, b = [t] ∧ t.length > maxC) ∨ (b.map String.length).sum ≤ maxC) ∧
    ((texts.foldl (splitStep maxC) (batches, (cur, chars))).1.join ++
      (texts.foldl (splitStep maxC) (batches, (cur, chars))).2.1 =
      batches.join ++ cur ++ texts) ∧
    (∀ b ∈ batches, b ∈ (texts.foldl (splitStep maxC) (batches, (cur, chars))).1) ∧
    (∀ t ∈ texts, t.length > maxC →
      [t] ∈ (texts.foldl (splitStep maxC) (batches, (cur, chars))).1) := by
  induction texts with
  | nil =>
    intro batches cur chars h1 h2 h3
    refine ⟨h1, h2, h3, by simp, fun b hb => hb, by simp⟩
  | cons t rest ih =>
    intro batches cur chars h1 h2 h3
    simp only [List.foldl_cons]
    by_cases hbig : t.length > maxC
    · by_cases hcur : 0 < cur.length
      · have hstep : splitStep maxC (batches, (cur, chars)) t =
            (batches ++ [cur] ++ [[t]], ([], 0)) := by
          simp [splitStep, hbig, hcur]
        rw [hstep]
        have h3' : ∀ b ∈ batches ++ [cur] ++ [[t]],
            (∃ u, b = [u] ∧ u.length > maxC) ∨ (b.map String.length).sum ≤ maxC := by
          intro b hb
          rcases List.mem_append.mp hb with hb' | hb'
          · rcases List.mem_append.mp hb' with hb'' | hb''
            · exact h3 b hb''
            · right
              rw [List.mem_singleton.mp hb'']
              rw [h1] at h2
              exact h2
          · left
            exact ⟨t, List.mem_singleton.mp hb', hbig⟩
        obtain ⟨g1, g2, g3, g4, g5, g6⟩ := ih (batches ++ [cur] ++ [[t]]) [] 0 rfl
          (Nat.zero_le _) h3'
        refine ⟨g1, g2, g3, ?_, ?_, ?_⟩
        · rw [g4]; simp
        · intro b hb
          exact g5 b (by simp [hb])
        · intro u hu hul
          rcases List.mem_cons.mp hu with rfl | hu'
          · exact g5 [u] (by simp)
          · exact g6 u hu' hul
      · have hstep : splitStep maxC (batches, (cur, chars)) t =
            (batches ++ [[t]], ([], 0)) := by
          simp [splitStep, hbig, hcur]
        rw [hstep]
        have hcurnil : cur = [] := by
          cases cur with
          | nil => rfl
          | cons a l => simp at hcur
        have h3' : ∀ b ∈ batches ++ [[t]],
            (∃ u, b = [u] ∧ u.length > maxC) ∨ (b.map String.length).sum ≤ maxC := by
          intro b hb
          rcases List.mem_append.mp hb with hb' | hb'
          · exact h3 b hb'
          · left
            exact ⟨t, List.mem_singleton.mp hb', hbig⟩
        obtain ⟨g1, g2, g3, g4, g5, g6⟩ := ih (batches ++ [[t]]) [] 0 rfl
          (Nat.zero_le _) h3'
        refine ⟨g1, g2, g3, ?_, ?_, ?_⟩
        · rw [g4]; simp [hcurnil]
        · intro b hb
          exact g5 b (by simp [hb])
        · intro u hu hul
          rcases List.mem_cons.mp hu with rfl | hu'
          · exact g5 [u] (by simp)
          · exact g6 u hu' hul
    · by_cases hover : chars + t.length > maxC ∧ 0 < cur.length
      · have hstep : splitStep maxC (batches, (cur, chars)) t =
            (batches ++ [cur], ([t], t.length)) := by
          simp [splitStep, hbig, hover]
        rw [hstep]
        have h3' : ∀ b ∈ batches ++ [cur],
            (∃ u, b = [u] ∧ u.length > maxC) ∨ (b.map String.length).sum ≤ maxC := by
          intro b hb
          rcases List.mem_append.mp hb with hb' | hb'
          · exact h3 b hb'
          · right
            rw [List.mem_singleton.mp hb']
            rw [h1] at h2
            exact h2
        obtain ⟨g1, g2, g3, g4, g5, g6⟩ := ih (batches ++ [cur]) [t] t.length
          (by simp) (by omega) h3'
        refine ⟨g1, g2, g3, ?_, ?_, ?_⟩
        · rw [g4]; simp
        · intro b hb
          exact g5 b (by simp [hb])
        · intro u hu hul
          rcases List.mem_cons.mp hu with rfl | hu'
          · omega
          · exact g6 u hu' hul
      · have hstep : splitStep maxC (batches, (cur, chars)) t =
            (batches, (cur ++ [t], chars + t.length)) := by
          simp only [splitStep]
          rw [if_neg (by omega), if_neg hover]
        rw [hstep]
        have hle : chars + t.length ≤ maxC := by
          rcases Decidable.not_and_iff_or_not.mp hover with h | h
          · omega
          · have : cur = [] := by
              cases cur with
              | nil => rfl
              | cons a l => simp at h
            rw [this] at h1
            simp at h1
            omega
        obtain ⟨g1, g2, g3, g4, g5, g6⟩ := ih batches (cur ++ [t]) (chars + t.length)
          (by simp [h1]) hle h3
        refine ⟨g1, g2, g3, ?_, g5, ?_⟩
        · rw [g4]; simp
        · intro u hu hul
          rcases List.mem_cons.mp hu with rfl | hu'
          · omega
          · exact g6 u hu' hul

/-- C9: the Tencent batch splitter partitions the input: concatenating the
batches in order reproduces the input list; every batch is either an
over-the-limit singleton or has cumulative character length at most the
limit; and every text longer than the limit gets its own singleton batch. -/
theorem splitTextsToBatches_spec (texts : List String) (maxC : Nat) :
    ((splitTextsToBatches texts maxC).join = texts) ∧
    (∀ b ∈ splitTextsToBatches texts maxC,
      (∃ t, b = [t] ∧ t.length > maxC) ∨ (b.map String.length).sum ≤ maxC) ∧
    (∀ t ∈ texts, t.length > maxC → [t] ∈ splitTextsToBatches texts maxC) := by
  obtain ⟨g1, g2, g3, g4, g5, g6⟩ := splitFold_invariant maxC texts [] [] 0 rfl
    (Nat.zero_le _) (by simp)
  simp only [List.join_nil, List.nil_append] at g4
  unfold splitTextsToBatches
  by_cases hcur : 0 < (texts.foldl (splitStep maxC) ([], ([], 0))).2.1.length
  · rw [if_pos hcur]
    refine ⟨by simpa using g4, ?_, ?_⟩
    · intro b hb
      rcases List.mem_append.mp hb with hb' | hb'
      · exact g3 b hb'
      · right
        rw [List.mem_singleton.mp hb', ← g1]
        exact g2
    · intro t ht htl
      exact List.mem_append.mpr (Or.inl (g6 t ht htl))
  · rw [if_neg hcur]
    have hnil : (texts.foldl (splitStep maxC) ([], ([], 0))).2.1 = [] := by
      cases hl : (texts.foldl (splitStep maxC) ([], ([], 0))).2.1 with
      | nil => rfl
      | cons a l => rw [hl] at hcur; simp at hcur
    refine ⟨?_, g3, g6⟩
    rw [hnil] at g4
    simpa using g4

theorem splitTextsToBatches_spec_witness :
    (splitTextsToBatches ["ab", "cdefgh", "x"] 4).join = ["ab", "cdefgh", "x"] ∧
    ((∃ t, ["ab"] = [t] ∧ t.length > 4) ∨
      ((["ab"].map String.length).sum ≤ 4)) ∧
    ["cdefgh"] ∈ splitTextsToBatches ["ab", "cdefgh", "x"] 4 :=
  ⟨(splitTextsToBatches_spec ["ab", "cdefgh", "x"] 4).1,
   (splitTextsToBatches_spec ["ab", "cdefgh", "x"] 4).2.1 ["ab"] (by decide),
   (splitTextsToBatches_spec ["ab", "cdefgh", "x"] 4).2.2 "cdefgh" (by decide)
     (by decide)⟩

/-! ## Model of `extractFromJsCode` (`src/extract/extract-js.ts`) -/

/-- A `TaggedTemplateExpression` node as seen by the extraction walker: the
tag identifier's name, the template's literal segments (`quasis`, one more
than the number of interpolation slots) and the 1-based start line. -/
structure TaggedFragment where
  tag : String
  quasis : List String
  line : Nat
deriving DecidableEq, Repr

/-- The `quasis.map((quasi, i) => …).join("")` body: every quasi except the
last (`i < expressions.length`) is followed by
`placeholderStart ++ generateVarName(variableCounter++) ++ placeholderEnd`.
Returns the normalised text, the variables pushed in order, and the counter
after the fragment. -/
def buildNormalizedText (ps pe : String) :
    List String → Nat → String × List String × Nat
  | [], c => ("", [], c)
  | [q], c => (q, [], c)
  | q :: q' :: rest, c =>
    let varName := generateVarName c
    let r := buildNormalizedText ps pe (q' :: rest) (c + 1)
    (q ++ ps ++ varName ++ pe ++ r.1, varName :: r.2.1, r.2.2)

/-- The `TaggedTemplateExpression` visitor body of `extractFromJsCode`. -/
def extractJsStep (i18nTag ps pe : String) (acc : List I18nEntry × Nat)
    (f : TaggedFragment) : List I18nEntry × Nat :=
  if f.tag == i18nTag then
    let r := buildNormalizedText ps pe f.quasis acc.2
    (acc.1 ++ [⟨r.1, r.1, r.2.1, f.line, ""⟩], r.2.2)
  else acc

/-- `extractFromJsCode` from `src/extract/extract-js.ts`, over the
tagged-template nodes of one parsed code chunk in traversal order.
`variableCounter` is declared once per call (`let variableCounter = 0`) and
threaded through every visited fragment. -/
def extractFromJsCode (i18nTag ps pe : String) (frags : List TaggedFragment) :
    List I18nEntry :=
  (frags.foldl (extractJsStep i18nTag ps pe) ([], 0)).1

/-- C6 counterexample: in one file with two one-slot `i18n` fragments, the
second fragment's first slot is named "b", not "a". -/
theorem extractFromJsCode_counter_shared :
    (extractFromJsCode "i18n" "\x7b" "\x7d"
      [⟨"i18n", ["你好 ", ""], 1⟩, ⟨"i18n", ["再见 ", ""], 2⟩]).map I18nEntry.vars
      = [["a"], ["b"]] ∧ (["b"] : List String) ≠ ["a"] := by decide

/-- Total number of interpolation slots over the `i18nTag`-tagged fragments. -/
def totalSlots (i18nTag : String) : List TaggedFragment → Nat
  | [] => 0
  | f :: rest =>
    (if f.tag == i18nTag then f.quasis.length - 1 else 0) + totalSlots i18nTag rest

theorem buildNormalizedText_vars (ps pe : String) (qs : List String) (c : Nat) :
    (buildNormalizedText ps pe qs c).2.1 =
      (List.range' c (qs.length - 1)).map generateVarName ∧
    (buildNormalizedText ps pe qs c).2.2 = c + (qs.length - 1) := by
  induction qs generalizing c with
  | nil => simp [buildNormalizedText]
  | cons q rest ih =>
    cases rest with
    | nil => simp [buildNormalizedText]
    | cons q' rest' =>
      obtain ⟨ih1, ih2⟩ := ih (c := c + 1)
      have hlen : (q :: q' :: rest').length - 1 = ((q' :: rest').length - 1) + 1 := by
        simp
      refine ⟨?_, ?_⟩
      · show generateVarName c :: (buildNormalizedText ps pe (q' :: rest') (c + 1)).2.1 = _
        rw [ih1, hlen, List.range'_succ, List.map_cons]
      · show (buildNormalizedText ps pe (q' :: rest') (c + 1)).2.2 = _
        rw [ih2, hlen]
        omega

theorem extractJsFold_invariant (i18nTag ps pe : String)
    (frags : List TaggedFragment) :
    ∀ acc : List I18nEntry × Nat,
    (frags.foldl (extractJsStep i18nTag ps pe) acc).2 =
      acc.2 + totalSlots i18nTag frags ∧
    ((frags.foldl (extractJsStep i18nTag ps pe) acc).1.map I18nEntry.vars).join =
      (acc.1.map I18nEntry.vars).join ++
        (List.range' acc.2 (totalSlots i18nTag frags)).map generateVarName := by
  induction frags with
  | nil => intro acc; simp [totalSlots]
  | cons f rest ih =>
    intro acc
    by_cases htag : f.tag == i18nTag
    · have hstep : extractJsStep i18nTag ps pe acc f =
          (acc.1 ++ [⟨(buildNormalizedText ps pe f.quasis acc.2).1,
            (buildNormalizedText ps pe f.quasis acc.2).1,
            (buildNormalizedText ps pe f.quasis acc.2).2.1, f.line, ""⟩],
           (buildNormalizedText ps pe f.quasis acc.2).2.2) := by
        simp [extractJsStep, htag]
      obtain ⟨hv, hc⟩ := buildNormalizedText_vars ps pe f.quasis acc.2
      have hts : totalSlots i18nTag (f :: rest) =
          (f.quasis.length - 1) + totalSlots i18nTag rest := by
        simp [totalSlots, htag]
      simp only [List.foldl_cons, hstep]
      obtain ⟨g1, g2⟩ := ih (acc.1 ++ [⟨(buildNormalizedText ps pe f.quasis acc.2).1,
        (buildNormalizedText ps pe f.quasis acc.2).1,
        (buildNormalizedText ps pe f.quasis acc.2).2.1, f.line, ""⟩],
        (buildNormalizedText ps pe f.quasis acc.2).2.2)
      refine ⟨?_, ?_⟩
      · rw [g1, hc, hts]
        omega
      · rw [g2, hts]
        simp only [List.map_append, List.join_append, hc, hv,
          List.map_cons, List.map_nil, List.join_cons, List.join_nil,
          List.append_nil]
        rw [List.append_assoc]
        congr 1
        rw [← List.map_append, List.range'_append_1, Nat.add_comm]
    · have hstep : extractJsStep i18nTag ps pe acc f = acc := by
        simp [extractJsStep, htag]
      have hts : totalSlots i18nTag (f :: rest) = totalSlots i18nTag rest := by
        simp [totalSlots, htag]
      simp only [List.foldl_cons, hstep, hts]
      exact ih acc

/-- C6 (amended): the placeholder counter restarts at 0 for each *call* of
`extractFromJsCode` (one call per JS file or per extracted Vue expression),
not per tagged fragment; within a call it is shared across the fragments, so
the variables of all extracted entries, in order, are
`generateVarName 0, generateVarName 1, …` across fragment boundaries. -/
theorem extractFromJsCode_counter_per_call (i18nTag ps pe : String)
    (frags : List TaggedFragment) :
    ((extractFromJsCode i18nTag ps pe frags).map I18nEntry.vars).join =
      (List.range (totalSlots i18nTag frags)).map generateVarName := by
  obtain ⟨_, g2⟩ := extractJsFold_invariant i18nTag ps pe frags ([], 0)
  unfold extractFromJsCode
  rw [g2]
  simp [List.range_eq_range']

/-! ## Model of the span rewriter of `markJsCode` (`src/mark-js.ts`) -/

/-- A replacement span `{start, end, content}` over an immutable source
buffer.  The source field `end` is rendered `stop` (`end` is a Lean
keyword).  Offsets count UTF-16 units; the buffer is a character list (all
concrete inputs here are BMP, where the two coincide). -/
structure Replacement where
  start : Nat
  stop : Nat
  content : List Char
deriving DecidableEq, Repr

/-- The application loop of `markJsCode` (after
`replacements.sort((a, b) => b.start - a.start)`):
`modifiedCode = modifiedCode.slice(0, start) + content + modifiedCode.slice(end)`
for each replacement in the (descending) list order. -/
def applySpansDesc (code : List Char) (replacements : List Replacement) :
    List Char :=
  replacements.foldl (fun c r => c.take r.start ++ r.content ++ c.drop r.stop) code

/-- The spans are pairwise non-overlapping, in ascending order starting at or
after `p`, and within the buffer. -/
def spansOk (len : Nat) : Nat → List Replacement → Bool
  | _, [] => true
  | p, r :: rest =>
    decide (p ≤ r.start) && decide (r.start ≤ r.stop) && decide (r.stop ≤ len) &&
      spansOk len r.stop rest

/-- Modelled from the spec: the intended result of applying spans — each
`[start, end)` region replaced by its content, all text outside the spans
unchanged (`spliceSpansSpec code p spans` renders the buffer from offset `p`
on). -/
def spliceSpansSpec (code : List Char) : Nat → List Replacement → List Char
  | p, [] => code.drop p
  | p, r :: rest =>
    (code.take r.start).drop p ++ r.content ++ spliceSpansSpec code r.stop rest

theorem spliceSpans_foldr (code : List Char) (spans : List Replacement)
    (p : Nat) (h : spansOk code.length p spans = true) :
    spans.foldr (fun r c => c.take r.start ++ r.content ++ c.drop r.stop) code =
      code.take p ++ spliceSpansSpec code p spans := by
  induction spans generalizing p with
  | nil => simp [spliceSpansSpec]
  | cons r rest ih =>
    simp only [spansOk, Bool.and_eq_true, decide_eq_true_eq] at h
    obtain ⟨⟨⟨hp, hse⟩, hlen⟩, hrest⟩ := h
    rw [List.foldr_cons, ih r.stop hrest]
    have hlentake : (code.take r.stop).length = r.stop := by
      rw [List.length_take]
      omega
    have htake : (code.take r.stop ++ spliceSpansSpec code r.stop rest).take r.start
        = code.take r.start := by
      rw [List.take_append_of_le_length (by omega), List.take_take]
      congr 1
      omega
    have hdrop : (code.take r.stop ++ spliceSpansSpec code r.stop rest).drop r.stop
        = spliceSpansSpec code r.stop rest := by
      have hd := List.drop_left (code.take r.stop) (spliceSpansSpec code r.stop rest)
      rwa [hlentake] at hd
    rw [htake, hdrop, spliceSpansSpec]
    rw [show code.take p ++ ((code.take r.start).drop p ++ r.content ++
        spliceSpansSpec code r.stop rest) =
      (code.take p ++ (code.take r.start).drop p) ++ r.content ++
        spliceSpansSpec code r.stop rest by simp]
    congr 1
    congr 1
    rw [show code.take p = (code.take r.start).take p by
      rw [List.take_take]; congr 1; omega]
    exact (List.take_append_drop p (code.take r.start)).symm

/-- C7: applying non-overlapping spans in descending `start` order (the order
produced by the sort at the top of the application loop; here the ascending
list `spans` reversed) yields the string in which each `[start, end)` region
is replaced by its content and all text outside the spans is unchanged,
regardless of the length difference between contents and regions. -/
theorem applySpansDesc_correct (code : List Char) (spans : List Replacement)
    (h : spansOk code.length 0 spans = true) :
    applySpansDesc code spans.reverse = spliceSpansSpec code 0 spans := by
  have : applySpansDesc code spans.reverse =
      spans.foldr (fun r c => c.take r.start ++ r.content ++ c.drop r.stop) code := by
    rw [applySpansDesc, List.foldl_reverse]
  rw [this, spliceSpans_foldr code spans 0 h]
  simp

theorem applySpansDesc_correct_witness :
    spansOk (String.data "a你好b").length 0 [⟨1, 3, String.data "TAG(你好)"⟩] = true ∧
    applySpansDesc (String.data "a你好b") [⟨1, 3, String.data "TAG(你好)"⟩]
      = String.data "aTAG(你好)b" :=
  ⟨by decide,
   (applySpansDesc_correct (String.data "a你好b") [⟨1, 3, String.data "TAG(你好)"⟩]
      (by decide)).trans (by decide)⟩

/-! ## Model of the translation orchestrator
(`TranslationManager` / `TranslationRecordManager`, `src/translation/`) -/

/-- `TranslationRecord`: key → { languageCode → translated text }. -/
abbrev TranslationRecord := List (String × Dict)

/-- `addTranslation`: `record[key] ??= {}; record[key][lang] = text`. -/
def recAdd (r : TranslationRecord) (key targetLang translatedText : String) :
    TranslationRecord :=
  if r.any (fun p => p.1 == key) then
    r.map (fun p =>
      if p.1 == key then (p.1, dictSet p.2 targetLang translatedText) else p)
  else r ++ [(key, dictSet [] targetLang translatedText)]

def recLookupRow (r : TranslationRecord) (key : String) : Option Dict :=
  (r.find? (fun p => p.1 == key)).map Prod.snd

/-- `isTranslated`: `!!(record[key] && record[key][targetLang])` — the row
must exist and the language entry must be present and non-empty. -/
def isTranslated (r : TranslationRecord) (key targetLang : String) : Bool :=
  match recLookupRow r key with
  | some row =>
    match dictLookup row targetLang with
    | some t => t ≠ ""
    | none => false
  | none => false

/-- `getKeysToTranslate` from the record manager. -/
def getKeysToTranslate (r : TranslationRecord) (allKeys : List String)
    (targetLang : String) (forceUpdate : Bool) : List String :=
  if forceUpdate then allKeys
  else allKeys.filter (fun k => !isTranslated r k targetLang)

/-- `initializeSourceTranslations`: record each source text under the source
language. -/
def initializeSourceTranslations (r : TranslationRecord) (sourceTexts : Dict)
    (sourceLang : String) : TranslationRecord :=
  sourceTexts.foldl (fun r p => recAdd r p.1 sourceLang p.2) r

/-- The loop of `createBatches`, structurally recursive on a fuel bounded by
the item count (each slice consumes at least one item when
`1 ≤ batchSize`). -/
def createBatchesAux (batchSize : Nat) : Nat → List String → List (List String)
  | _, [] => []
  | 0, _ :: _ => []
  | fuel + 1, x :: xs =>
    (x :: xs).take batchSize :: createBatchesAux batchSize fuel ((x :: xs).drop batchSize)

/-- `createBatches` (`TranslationManager`): consecutive slices of
`batchSize` items (`items.slice(i, i + batchSize)` for
`i = 0, batchSize, …`).  `batchSize` is the constant 10 in the source; a
zero size (which would loop forever in JavaScript) yields no batches. -/
def createBatches (items : List String) (batchSize : Nat) : List (List String) :=
  if batchSize = 0 then [] else createBatchesAux batchSize items.length items

/-- `TranslationManager.translateBatch`: one provider call; a thrown error
(`none` from the provider function `svc texts from to`) is caught and turned
into identity results with confidence 0.  Results are
`(originalText, translatedText)` pairs. -/
def translateBatchM (svc : List String → String → String → Option (List (String × String)))
    (texts : List String) (sourceLang targetLang : String) :
    List (String × String) :=
  match svc texts sourceLang targetLang with
  | some results => results
  | none => texts.map (fun t => (t, t))

/-- The result-saving loop of `batchTranslate`: `result = batchResults[j]`;
only results with `translatedText !== originalText` are added to the
record. -/
def saveBatchResults (targetLang : String) :
    List String → List (String × String) → TranslationRecord → TranslationRecord
  | [], _, r => r
  | _ :: ks, [], r => saveBatchResults targetLang ks [] r
  | k :: ks, res :: rs, r =>
    saveBatchResults targetLang ks rs
      (if res.2 ≠ res.1 then recAdd r k targetLang res.2 else r)

/-- `TranslationManager.batchTranslate` (batch size 10). -/
def batchTranslateM
    (svc : List String → String → String → Option (List (String × String)))
    (sourceTexts : Dict) (keys : List String) (sourceLang targetLang : String)
    (r : TranslationRecord) : TranslationRecord :=
  (createBatches keys 10).foldl (fun r batch =>
    let batchTexts := batch.map (fun k => (dictLookup sourceTexts k).getD "")
    saveBatchResults targetLang batch
      (translateBatchM svc batchTexts sourceLang targetLang) r) r

/-- The per-target-language loop of `executeTranslation`. -/
def executeTranslationM
    (svc : List String → String → String → Option (List (String × String)))
    (keysToTranslate : List String) (sourceTexts : Dict) (sourceLang : String)
    (targetLanguages : List String) (update : Bool) (r : TranslationRecord) :
    TranslationRecord :=
  targetLanguages.foldl (fun r targetLang =>
    if targetLang = sourceLang then r
    else
      let filteredKeys := getKeysToTranslate r keysToTranslate targetLang update
      if filteredKeys.isEmpty then r
      else batchTranslateM svc sourceTexts filteredKeys sourceLang targetLang r) r

/-- Reading a language file: the parsed dictionary, `{}` when missing. -/
def getLangFile (files : List (String × Dict)) (lang : String) : Dict :=
  ((files.find? (fun p => p.1 == lang)).map Prod.snd).getD []

/-- The per-language body of `syncToLanguageFiles`: copy from the record
every truthy `translations[lang]` that differs from the current value. -/
def syncLang (record : TranslationRecord) (lang : String) (langData : Dict) :
    Dict :=
  record.foldl (fun d p =>
    match dictLookup p.2 lang with
    | some t => if t ≠ "" ∧ dictLookup d p.1 ≠ some t then dictSet d p.1 t else d
    | none => d) langData

/-- `syncToLanguageFiles`: rewrite each configured language file. -/
def syncToLanguageFiles (record : TranslationRecord) (langs : List String)
    (files : List (String × Dict)) : List (String × Dict) :=
  langs.map (fun lang => (lang, syncLang record lang (getLangFile files lang)))

/-- `TranslationManager.translateProject` as a pure state transformer over
the translation record (`<translateMapping>.json`) and the per-language
dictionaries.  The source language is the constant `'zh'`.  Early returns
(empty source dictionary, nothing to translate) write nothing. -/
def translateProjectM
    (svc : List String → String → String → Option (List (String × String)))
    (langs : List String) (files : List (String × Dict)) (update : Bool)
    (record0 : TranslationRecord) : TranslationRecord × List (String × Dict) :=
  let languageFiles := langs.map (fun l => (l, getLangFile files l))
  let zhDict := getLangFile languageFiles "zh"
  if zhDict.isEmpty then (record0, files)
  else
    let record1 := initializeSourceTranslations record0 zhDict "zh"
    let targetLangs := langs.filter (fun l => l ≠ "zh")
    let sourceKeys := zhDict.map Prod.fst
    let uniqueKeys := (targetLangs.foldl
      (fun acc t => acc ++ getKeysToTranslate record1 sourceKeys t update) []).dedup
    if uniqueKeys.isEmpty then (record1, files)
    else
      let record2 := executeTranslationM svc uniqueKeys zhDict "zh" targetLangs
        update record1
      (record2, syncToLanguageFiles record2 langs files)

/-- C2 counterexample: with a provider that fails on every request, after
`translateProject` the key `你好` of the source (`zh`) dictionary has no
value at all in the target (`en`) dictionary — it is dropped, not recorded
with its original text. -/
theorem translateProject_drops_failed_keys :
    dictLookup (getLangFile [("zh", [("你好", "你好")]), ("en", [])] "zh") "你好"
      = some "你好" ∧
    dictLookup (getLangFile (translateProjectM (fun _ _ _ => none) ["zh", "en"]
      [("zh", [("你好", "你好")]), ("en", [])] false []).2 "en") "你好" = none := by
  decide

theorem saveBatchResults_identity (lang : String) (ks : List String)
    (results : List (String × String)) (r : TranslationRecord)
    (h : ∀ p ∈ results, p.2 = p.1) :
    saveBatchResults lang ks results r = r := by
  induction ks generalizing results r with
  | nil => cases results <;> rfl
  | cons k ks ih =>
    cases results with
    | nil =>
      show saveBatchResults lang ks [] r = r
      exact ih [] r (by simp)
    | cons res rs =>
      show saveBatchResults lang ks rs
        (if res.2 ≠ res.1 then recAdd r k lang res.2 else r) = r
      rw [if_neg (by simpa using h res (List.mem_cons_self res rs))]
      exact ih rs r (fun p hp => h p (List.mem_cons_of_mem res hp))

theorem batchTranslateM_fail (sourceTexts : Dict) (keys : List String)
    (sourceLang targetLang : String) (r : TranslationRecord) :
    batchTranslateM (fun _ _ _ => none) sourceTexts keys sourceLang targetLang r
      = r := by
  unfold batchTranslateM
  generalize createBatches keys 10 = bs
  induction bs generalizing r with
  | nil => rfl
  | cons b rest ih =>
    simp only [List.foldl_cons]
    rw [show saveBatchResults targetLang b
        (translateBatchM (fun _ _ _ => none)
          (b.map (fun k => (dictLookup sourceTexts k).getD "")) sourceLang targetLang)
        r = r from saveBatchResults_identity _ _ _ _ (by
          intro p hp
          simp only [translateBatchM, List.mem_map] at hp
          obtain ⟨t, _, rfl⟩ := hp
          rfl)]
    exact ih r

theorem executeTranslationM_fail (keysToTranslate : List String)
    (sourceTexts : Dict) (sourceLang : String) (targetLanguages : List String)
    (update : Bool) (r : TranslationRecord) :
    executeTranslationM (fun _ _ _ => none) keysToTranslate sourceTexts
      sourceLang targetLanguages update r = r := by
  unfold executeTranslationM
  induction targetLanguages generalizing r with
  | nil => rfl
  | cons t rest ih =>
    simp only [List.foldl_cons]
    by_cases h1 : t = sourceLang
    · rw [if_pos h1]
      exact ih r
    · rw [if_neg h1]
      by_cases h2 : (getKeysToTranslate r keysToTranslate t update).isEmpty
      · rw [if_pos h2]
        exact ih r
      · rw [if_neg h2, batchTranslateM_fail]
        exact ih r

/-- All language entries in all rows of the record carry language `lang`. -/
def RowsOnly (lang : String) (r : TranslationRecord) : Prop :=
  ∀ p ∈ r, ∀ q ∈ p.2, q.1 = lang

theorem dictSet_keys (d : Dict) (k v : String) (q : String × String)
    (hq : q ∈ dictSet d k v) : q.1 = k ∨ ∃ q' ∈ d, q.1 = q'.1 := by
  unfold dictSet at hq
  split at hq
  · rw [List.mem_map] at hq
    obtain ⟨p, hp, rfl⟩ := hq
    by_cases hpk : p.1 == k
    · simp only [hpk, if_pos]
      left
      simpa using hpk
    · simp only [hpk, Bool.false_eq_true, if_neg, not_false_iff]
      right
      exact ⟨p, hp, rfl⟩
  · rw [List.mem_append] at hq
    rcases hq with hq | hq
    · right
      exact ⟨q, hq, rfl⟩
    · left
      rw [List.mem_singleton.mp hq]

theorem recAdd_rowsOnly (lang : String) (r : TranslationRecord) (k v : String)
    (h : RowsOnly lang r) : RowsOnly lang (recAdd r k lang v) := by
  intro p hp q hq
  unfold recAdd at hp
  split at hp
  · rw [List.mem_map] at hp
    obtain ⟨p', hp', rfl⟩ := hp
    by_cases hpk : p'.1 == k
    · simp only [hpk, if_pos] at hq
      rcases dictSet_keys p'.2 lang v q hq with h1 | ⟨q', hq', h1⟩
      · exact h1
      · rw [h1]
        exact h p' hp' q' hq'
    · simp only [hpk, Bool.false_eq_true, if_neg, not_false_iff] at hq
      exact h p' hp' q hq
  · rw [List.mem_append] at hp
    rcases hp with hp | hp
    · exact h p hp q hq
    · rw [List.mem_singleton.mp hp] at hq
      rcases dictSet_keys [] lang v q hq with h1 | ⟨q', hq', _⟩
      · exact h1
      · simp at hq'

theorem initializeSourceTranslations_rowsOnly (lang : String)
    (sourceTexts : Dict) (r : TranslationRecord) (h : RowsOnly lang r) :
    RowsOnly lang (initializeSourceTranslations r sourceTexts lang) := by
  unfold initializeSourceTranslations
  induction sourceTexts generalizing r with
  | nil => exact h
  | cons p rest ih =>
    simp only [List.foldl_cons]
    exact ih _ (recAdd_rowsOnly lang r p.1 p.2 h)

theorem rowsOnly_lookup_none (row : Dict) (lang : String)
    (h : ∀ q ∈ row, q.1 = "zh") (hne : lang ≠ "zh") :
    dictLookup row lang = none := by
  simp only [dictLookup, Option.map_eq_none', List.find?_eq_none, beq_iff_eq]
  intro q hq hql
  exact hne (by rw [← hql]; exact h q hq)

theorem syncLang_no_entries (record : TranslationRecord) (lang : String)
    (d : Dict) (h : ∀ p ∈ record, dictLookup p.2 lang = none) :
    syncLang record lang d = d := by
  unfold syncLang
  induction record generalizing d with
  | nil => rfl
  | cons p rest ih =>
    simp only [List.foldl_cons, h p (List.mem_cons_self p rest)]
    exact ih d (fun p' hp' => h p' (List.mem_cons_of_mem p hp'))

theorem getLangFile_map (g : String → Dict) (langs : List String) (t : String)
    (ht : t ∈ langs) :
    getLangFile (langs.map (fun l => (l, g l))) t = g t := by
  induction langs with
  | nil => simp at ht
  | cons l rest ih =>
    by_cases hlt : l = t
    · subst hlt
      simp [getLangFile, List.find?]
    · have ht' : t ∈ rest := by
        rcases List.mem_cons.mp ht with rfl | h'
        · exact absurd rfl hlt
        · exact h'
      have hb : ¬((l, g l).1 == t) := by simpa using hlt
      simp only [List.map_cons, getLangFile, List.find?]
      rw [show ((l, g l).1 == t) = false from by simpa using hlt]
      exact ih ht'

/-- C2 (amended): after `translateProject` with a provider failing on every
request, a key whose translation attempts all fail is *not* recorded: the
record only gains source-language (`zh`) entries and every target-language
dictionary is left exactly as it was — failed keys receive no value in the
target dictionaries (they stay pending for later runs) rather than being
written with their original text. -/
theorem translateProject_fail_leaves_targets (langs : List String)
    (files : List (String × Dict)) (update : Bool) (t : String)
    (ht : t ∈ langs) (hnz : t ≠ "zh") :
    getLangFile (translateProjectM (fun _ _ _ => none) langs files update []).2 t
      = getLangFile files t := by
  unfold translateProjectM
  by_cases h1 : (getLangFile (langs.map fun l => (l, getLangFile files l)) "zh").isEmpty
  · simp only [h1, if_pos]
  · simp only [h1, Bool.false_eq_true, if_neg, not_false_iff]
    by_cases h2 : ((langs.filter (fun l => l ≠ "zh")).foldl
        (fun acc tl => acc ++ getKeysToTranslate
          (initializeSourceTranslations []
            (getLangFile (langs.map fun l => (l, getLangFile files l)) "zh") "zh")
          ((getLangFile (langs.map fun l => (l, getLangFile files l)) "zh").map Prod.fst)
          tl update) []).dedup.isEmpty
    · simp only [h2, if_pos]
    · simp only [h2, Bool.false_eq_true, if_neg, not_false_iff]
      rw [executeTranslationM_fail]
      unfold syncToLanguageFiles
      rw [getLangFile_map (fun l => syncLang _ l (getLangFile files l)) langs t ht]
      apply syncLang_no_entries
      intro p hp
      apply rowsOnly_lookup_none p.2 t _ hnz
      intro q hq
      exact initializeSourceTranslations_rowsOnly "zh" _ [] (by simp [RowsOnly])
        p hp q hq

theorem translateProject_fail_leaves_targets_witness :
    getLangFile (translateProjectM (fun _ _ _ => none) ["zh", "en"]
      [("zh", [("你好", "你好")]), ("en", [("k", "v")])] false []).2 "en"
      = getLangFile [("zh", [("你好", "你好")]), ("en", [("k", "v")])] "en" :=
  translateProject_fail_leaves_targets ["zh", "en"]
    [("zh", [("你好", "你好")]), ("en", [("k", "v")])] false "en"
    (by decide) (by decide)

/-! ## Model of the marking engine (`markJsCode`, `src/mark-js.ts`)

The four babel visitors (`StringLiteral`, `TemplateLiteral`, `JSXText`,
`JSXAttribute`) are rendered as one recursive collector over an embedded
syntax tree whose nodes carry their source offsets.  The `findParent`-based
skip conditions become context flags threaded down the recursion.  The model
fixes `ignoreComment` unset (so `hasIgnoreComment` is always false) and no
`i18nImport` (so no import statement is prepended); neither is exercised by
the claims below. -/

/-- `toSafeTemplateLiteral` (`src/utils.ts`), character loop: a backslash not
followed by `n` or `s` doubles, a backtick is escaped, `${` becomes `\x5c$\x7b`
(consuming both characters), everything else is copied. -/
def toSafeTemplateLiteralAux : List Char → List Char
  | [] => []
  | '\\' :: rest =>
    if rest.head? = some 'n' ∨ rest.head? = some 's' then
      '\\' :: toSafeTemplateLiteralAux rest
    else '\\' :: '\\' :: toSafeTemplateLiteralAux rest
  | '`' :: rest => '\\' :: '`' :: toSafeTemplateLiteralAux rest
  | '$' :: '{' :: rest => '\\' :: '$' :: '{' :: toSafeTemplateLiteralAux rest
  | c :: rest => c :: toSafeTemplateLiteralAux rest

def toSafeTemplateLiteral (s : String) : String :=
  String.mk ('`' :: toSafeTemplateLiteralAux s.data ++ [ '`' ])

/-- The JavaScript `\s` character class (as used by `splitString`). -/
def isJsSpace (c : Char) : Bool :=
  c = '\t' ∨ c = '\n' ∨ c.toNat = 0x0b ∨ c.toNat = 0x0c ∨ c = '\r' ∨ c = ' ' ∨
  c.toNat = 0xa0 ∨ c.toNat = 0x1680 ∨ (0x2000 ≤ c.toNat ∧ c.toNat ≤ 0x200a) ∨
  c.toNat = 0x2028 ∨ c.toNat = 0x2029 ∨ c.toNat = 0x202f ∨ c.toNat = 0x205f ∨
  c.toNat = 0x3000 ∨ c.toNat = 0xfeff

/-- `splitString` (`src/utils.ts`): `/^(\s*)(.*?)(\s*)$/s` — maximal
whitespace prefix, maximal whitespace suffix of the remainder, content in
between.  Returns `(leading, content, trailing)`. -/
def splitString (str : String) : String × String × String :=
  let rest := str.data.dropWhile isJsSpace
  (String.mk (str.data.takeWhile isJsSpace),
   String.mk ((rest.reverse.dropWhile isJsSpace).reverse),
   String.mk ((rest.reverse.takeWhile isJsSpace).reverse))

/-- The node kinds of `markJsCode`'s traversal, with babel source offsets.
`taggedIdent` is a `TaggedTemplateExpression` whose tag is an `Identifier`
(its inlined quasi template needs no offsets: it is always skipped, by the
parent-tag check when the tag is the i18n tag and by the `isNested` check
otherwise); `taggedOther` has a non-`Identifier` tag expression, so its quasi
template (offsets `ts`, `te`) passes both identifier-guarded checks and is
processed like a plain template.  `jsxAttrStr` / `jsxAttrTmpl` are
`JSXAttribute`s with a string value (offsets of the value node, quotes
included) or a template-literal value.  `strSkip` is an `ImportDeclaration`,
`TSLiteralType` or `TSEnumMember` (contexts whose string literals are
skipped); `wrap` is any other container node. -/
inductive JsAst where
  | strLit (s e : Nat) (value : String)
  | tmpl (s e : Nat) (quasis : List String) (exprs : List JsAst)
  | taggedIdent (tag : String) (quasis : List String) (exprs : List JsAst)
  | taggedOther (tagNode : JsAst) (ts te : Nat) (quasis : List String)
      (exprs : List JsAst)
  | jsxText (s e : Nat) (value : String)
  | jsxAttrStr (name : String) (vs ve : Nat) (value : String)
  | jsxAttrTmpl (name : String) (ts te : Nat) (quasis : List String)
      (exprs : List JsAst)
  | jsxElem (attrs : List JsAst) (children : List JsAst)
  | strSkip (children : List JsAst)
  | wrap (children : List JsAst)

/-- Ancestor facts consulted by the visitors' `findParent` calls. -/
structure MarkCtx where
  inJsxAttr : Bool
  inTmpl : Bool
  inOtherTagged : Bool
  inStrSkip : Bool

/-- `String.prototype.includes` on character lists (substring search). -/
def containsSeq (sub : List Char) : List Char → Bool
  | [] => sub.isEmpty
  | c :: rest => sub.isPrefixOf (c :: rest) || containsSeq sub rest

mutual

/-- The replacement spans pushed by the four visitors, in traversal order. -/
def collectNode (i18nTag : String) (ignoreAttrs : List String)
    (code : List Char) (ctx : MarkCtx) : JsAst → List Replacement
  | .strLit s e v =>
    if ctx.inJsxAttr ∨ ctx.inTmpl ∨ ctx.inStrSkip then []
    else if hasChinese v then
      [⟨s, e, (i18nTag ++ toSafeTemplateLiteral v).data⟩]
    else []
  | .tmpl s e quasis exprs =>
    (if ctx.inJsxAttr then []
     else if ctx.inTmpl ∨ ctx.inOtherTagged then []
     else if quasis.any hasChinese then
       [⟨s, e, i18nTag.data ++ (code.take e).drop s⟩]
     else [])
    ++ collectList i18nTag ignoreAttrs code
        { ctx with inTmpl := true } exprs
  | .taggedIdent tag _ exprs =>
    collectList i18nTag ignoreAttrs code
      { ctx with
        inTmpl := true
        inOtherTagged := ctx.inOtherTagged || tag != i18nTag } exprs
  | .taggedOther tagNode ts te quasis exprs =>
    (if ctx.inJsxAttr then []
     else if ctx.inTmpl ∨ ctx.inOtherTagged then []
     else if quasis.any hasChinese then
       [⟨ts, te, i18nTag.data ++ (code.take te).drop ts⟩]
     else [])
    ++ collectNode i18nTag ignoreAttrs code ctx tagNode
    ++ collectList i18nTag ignoreAttrs code
        { ctx with inTmpl := true } exprs
  | .jsxText s e v =>
    if hasChinese v then
      [⟨s, e, ((splitString v).1 ++ "\x7b" ++ i18nTag ++
        toSafeTemplateLiteral (splitString v).2.1 ++ "\x7d" ++
        (splitString v).2.2).data⟩]
    else []
  | .jsxAttrStr name vs ve v =>
    if name ∈ ignoreAttrs then []
    else if hasChinese v then
      [⟨vs, ve, ("\x7b" ++ i18nTag ++ toSafeTemplateLiteral v ++ "\x7d").data⟩]
    else []
  | .jsxAttrTmpl name ts te quasis exprs =>
    (if name ∈ ignoreAttrs then []
     else if quasis.any (fun q =>
         ('`' ∈ q.data) ∨ containsSeq [ '$', '{' ] q.data) then []
     else if quasis.any hasChinese then
       [⟨ts, te, i18nTag.data ++ (code.take te).drop ts⟩]
     else [])
    ++ collectList i18nTag ignoreAttrs code
        { ctx with inJsxAttr := true, inTmpl := true } exprs
  | .jsxElem attrs children =>
    collectList i18nTag ignoreAttrs code ctx attrs
    ++ collectList i18nTag ignoreAttrs code ctx children
  | .strSkip children =>
    collectList i18nTag ignoreAttrs code
      { ctx with inStrSkip := true } children
  | .wrap children => collectList i18nTag ignoreAttrs code ctx children

def collectList (i18nTag : String) (ignoreAttrs : List String)
    (code : List Char) (ctx : MarkCtx) : List JsAst → List Replacement
  | [] => []
  | x :: xs =>
    collectNode i18nTag ignoreAttrs code ctx x
    ++ collectList i18nTag ignoreAttrs code ctx xs

end

/-- Insertion into a start-descending list
(`replacements.sort((a, b) => b.start - a.start)`). -/
def insertDesc (r : Replacement) : List Replacement → List Replacement
  | [] => [r]
  | x :: xs => if x.start ≤ r.start then r :: x :: xs else x :: insertDesc r xs

def sortByStartDesc (l : List Replacement) : List Replacement :=
  l.foldr insertDesc []

/-- `markJsCode` (`src/mark-js.ts`): collect the visitors' replacement spans
over the parsed tree; `undefined` (`none`) when none were produced, otherwise
the spans applied in descending `start` order.  Replacement contents capture
slices of the *original* buffer (`code.slice(start, end)` is read during
traversal). -/
def markJsCode (i18nTag : String) (ignoreAttrs : List String)
    (code : List Char) (ast : JsAst) : Option (List Char) :=
  let replacements := collectNode i18nTag ignoreAttrs code
    ⟨false, false, false, false⟩ ast
  if replacements.isEmpty then none
  else some (applySpansDesc code (sortByStartDesc replacements))

/-- The failing input for idempotence: a Chinese template literal whose
interpolation contains a JSX element with a Chinese attribute,
`x=` followed by the backtick template `中${<div title="文"/>}`. -/
def markSrc0 : String := "x=`中$\x7b<div title=\"文\"/>\x7d`"

/-- The babel parse of `markSrc0` (offsets in code units): the template
literal spans [2, 24), its interpolation holds a `JSXElement` whose `title`
attribute value node (quotes included) spans [17, 20). -/
def markAst0 : JsAst :=
  .wrap [ .tmpl 2 24 ["中", ""]
    [ .jsxElem [ .jsxAttrStr "title" 17 20 "文" ] [] ] ]

/-- The outcome of the first marking pass on `markSrc0`: the inner
attribute replacement is applied first, then the outer template replacement
(whose content captured the *original* slice) overwrites it and mis-drops
`code.slice(end)` at the stale offset, leaving the attribute unmarked and
the residue `` `}/>}` `` appended. -/
def markOut1 : String := "x=i18n`中$\x7b<div title=\"文\"/>\x7d``\x7d/>\x7d`"

/-- The babel parse of `markOut1`: a chained tagged template — the tag of the
outer `TaggedTemplateExpression` (quasi `` `}/>}` `` at [28, 34)) is itself
the tagged template `i18n`中${…}``, whose interpolation still holds the JSX
element with the Chinese `title` value node at [21, 24). -/
def markAst1 : JsAst :=
  .wrap [ .taggedOther
    (.taggedIdent "i18n" ["中", ""]
      [ .jsxElem [ .jsxAttrStr "title" 21 24 "文" ] [] ])
    28 34 ["\x7d/>\x7d"] [] ]

/-- C3: marking is not idempotent.  On `markSrc0` the first pass collects two
*overlapping* spans (the attribute span [17, 20) lies inside the template
span [2, 24), violating the non-overlap invariant): the `JSXAttribute` and
`JSXText` visitors have no template-ancestor skip.  The produced output
`markOut1` still contains the unmarked Chinese attribute, so the second pass
collects a replacement again and returns a rewritten string instead of
`undefined`. -/
theorem markJsCode_not_idempotent :
    collectNode "i18n" [] markSrc0.data ⟨false, false, false, false⟩ markAst0 =
      [⟨2, 24, String.data "i18n`中$\x7b<div title=\"文\"/>\x7d`"⟩,
       ⟨17, 20, String.data "\x7bi18n`文`\x7d"⟩] ∧
    (2 ≤ 17 ∧ 17 < 24) ∧
    markJsCode "i18n" [] markSrc0.data markAst0 = some markOut1.data ∧
    markJsCode "i18n" [] markOut1.data markAst1 ≠ none := by
  refine ⟨by decide, by decide, by decide, by decide⟩
